import Mathlib

/-!
Verification of the vs-graph dependency-graph builder.

The development shallowly embeds the graph-construction core of the
repository: the `buildGraph` function of `src/extension.ts` (node/edge
accumulation, gitignore loading, manifest injection, orphan pruning),
its regex-based `parseImports`, and the alternative `buildFileGraph` /
AST-based `parseImports` of `src/fileParser.ts`.  Filesystem reads are
modelled by an explicit directory tree; the third-party `ignore` and
`JSON.parse` libraries are abstracted as function parameters.
-/

namespace VsGraph

/-! ## Data model (extension.ts) -/

/-- Node kinds: `'file' | 'folder' | 'dependency'` in `extension.ts`. -/
inductive NodeType where
  | file
  | folder
  | dependency
deriving DecidableEq, Repr

/-- The `Node` interface of `extension.ts`. -/
structure Node where
  id : String
  imports : List String
  isExternal : Bool
  type : NodeType
deriving DecidableEq, Repr

/-- The `Link` interface of `extension.ts`. -/
structure Link where
  source : String
  target : String
deriving DecidableEq, Repr

/-- The mutable builder state of `buildGraph`: the `nodes` array and the
`links` array.  The `nodeMap` is represented implicitly: an id is in the
map iff a node with that id is in `nodes` (the code pushes to both
together). -/
structure GState where
  nodes : List Node
  links : List Link
deriving DecidableEq, Repr

/-- `nodeMap.has(id)`. -/
def GState.hasNode (st : GState) (id : String) : Bool :=
  st.nodes.any (fun n => n.id = id)

/-- `addNode(id, type, isExternal)` of `extension.ts`: if the id is not yet
registered, push a fresh node with empty imports; otherwise leave the state
unchanged. -/
def addNode (st : GState) (id : String) (ty : NodeType) (ext : Bool) : GState :=
  if st.hasNode id then st
  else { st with nodes := st.nodes ++ [⟨id, [], ext, ty⟩] }

/-- `nodeMap.get(id)` — the node `addNode` returns. -/
def getNode (st : GState) (id : String) : Option Node :=
  st.nodes.find? (fun n => n.id = id)

/-- The mutation `node.imports = imports` on the node registered under
`id`.  Ids in the node list are unique, so updating by id is the update of
the single aliased object. -/
def setImports (st : GState) (id : String) (imps : List String) : GState :=
  { st with nodes := st.nodes.map (fun n => if n.id = id then { n with imports := imps } else n) }

/-- `links.push({source, target})`. -/
def addLink (st : GState) (s t : String) : GState :=
  { st with links := st.links ++ [⟨s, t⟩] }

/-! ## The regex import scanner (extension.ts `parseImports`)

`/import\s+.*?from\s+['"](.+?)['"]/g` run in an `exec` loop.  The matcher
below implements exactly the JS backtracking semantics of this pattern:
literal `import`, greedy `\s+` (longest first), lazy `.*?` (shortest
first), literal `from`, greedy `\s+`, either quote, lazy non-empty capture
`(.+?)`, either quote; the scan finds the leftmost match and resumes after
each match's end. -/

/-- JS `\s` on the character set relevant here (ASCII whitespace plus
NBSP). -/
def jsWS (c : Char) : Bool :=
  c = ' ' || c = '\t' || c = '\n' || c = '\r' || c = '\x0b' || c = '\x0c' || c = '\xa0'

/-- JS `.` (without the `s` flag): any character except a line
terminator. -/
def jsDot (c : Char) : Bool :=
  !(c = '\n' || c = '\r' || c = '\u2028' || c = '\u2029')

def isQuoteCh (c : Char) : Bool := c = '\'' || c = '"'

/-- Match a literal character sequence at the head of the input. -/
def stripLit : List Char → List Char → Option (List Char)
  | [], s => some s
  | _ :: _, [] => none
  | c :: cs, d :: s => if c = d then stripLit cs s else none

/-- Length of the maximal whitespace run at the head of the input. -/
def wsRun : List Char → Nat
  | [] => 0
  | c :: rest => if jsWS c then wsRun rest + 1 else 0

/-- The lazy capture `(.+?)['"]`, after its first character has been
consumed: extend minimally until the first closing quote. -/
def lazyCapture (acc : List Char) : List Char → Option (List Char × List Char)
  | [] => none
  | d :: rest =>
    if isQuoteCh d then some (acc.reverse, rest)
    else if jsDot d then lazyCapture (d :: acc) rest
    else none

/-- Match `from\s+['"](.+?)['"]` at the head of the input, returning the
capture and the remainder after the closing quote. -/
def matchFromPart (s : List Char) : Option (List Char × List Char) :=
  match stripLit ['f', 'r', 'o', 'm'] s with
  | none => none
  | some s1 =>
    let k := wsRun s1
    if k = 0 then none
    else
      match s1.drop k with
      | [] => none
      | q :: s2 =>
        if isQuoteCh q then
          match s2 with
          | [] => none
          | c :: rest => if jsDot c then lazyCapture [c] rest else none
        else none

/-- The lazy `.*?` before `from…`: try the `from` part here first, then
consume one `.`-matching character and retry. -/
def lazyDotsThenFrom : List Char → Option (List Char × List Char)
  | [] => matchFromPart []
  | c :: rest =>
    match matchFromPart (c :: rest) with
    | some r => some r
    | none => if jsDot c then lazyDotsThenFrom rest else none

/-- The greedy `\s+` after `import`: try the maximal whitespace run first,
backtracking to shorter non-empty runs. -/
def wsBacktrack (s : List Char) : Nat → Option (List Char × List Char)
  | 0 => none
  | k + 1 =>
    match lazyDotsThenFrom (s.drop (k + 1)) with
    | some r => some r
    | none => wsBacktrack s k

/-- Match the whole pattern at the head of the input. -/
def matchImportAt (s : List Char) : Option (List Char × List Char) :=
  match stripLit ['i', 'm', 'p', 'o', 'r', 't'] s with
  | none => none
  | some s1 => wsBacktrack s1 (wsRun s1)

/-- The `exec` loop: find the leftmost match at or after the current
position, record the capture, resume after the match.  Fuel bounds the
scan by the input length (each step either advances one character or
consumes a whole match). -/
def scanImports : Nat → List Char → List String
  | 0, _ => []
  | _, [] => []
  | fuel + 1, c :: rest =>
    match matchImportAt (c :: rest) with
    | some (cap, after) => String.mk cap :: scanImports fuel after
    | none => scanImports fuel rest

/-- `parseImports` of `extension.ts`. -/
def parseImports (content : String) : List String :=
  scanImports content.length content.data

/-! ## Filesystem model

A directory listing is a sequence of named entries in `readdirSync`
order; an entry is a regular file with its text content, or a
subdirectory with its own listing.  The sequence is fused into the
inductive so that traversal is structurally recursive (and hence
computable by `decide`).  (Symlinks, which this tree cannot represent,
get their own model below for the termination analysis.) -/

inductive FSListing where
  | nil
  | file (name : String) (content : String) (rest : FSListing)
  | dir (name : String) (sub : FSListing) (rest : FSListing)
deriving DecidableEq, Repr

/-- `path.extname` on a basename: the suffix from the last dot, unless the
only dot is the leading one of a dotfile. -/
def extSuffix (i : Nat) (cs : List Char) : Option (List Char) :=
  match cs with
  | [] => none
  | c :: rest =>
    match extSuffix (i + 1) rest with
    | some e => some e
    | none => if c = '.' && i != 0 then some (c :: rest) else none

def extname (name : String) : String :=
  match extSuffix 0 name.data with
  | some e => String.mk e
  | none => ""

/-- `path.relative(rootPath, path.join(dir, name))`: the relative path of a
child, with forward-slash separators. -/
def joinRel (pre name : String) : String :=
  if pre = "" then name else pre ++ "/" ++ name

/-- Is an entry name a source file handled by `buildGraph`
(`path.extname(file) === '.ts' || path.extname(file) === '.js'`)? -/
def isSrcName (name : String) : Bool :=
  extname name = ".ts" || extname name = ".js"

/-- The `for (const imp of imports)` loop: register a dependency node and
push a link for every extracted specifier, in order. -/
def addImportLinks (rel : String) (imps : List String) (st : GState) : GState :=
  imps.foldl (fun s imp => addLink (addNode s imp .dependency true) rel imp) st

/-- The skip condition of the traversal loop:
`ig.ignores(relativePath) || file === 'node_modules'`. -/
def skipEntry (ig : String → Bool) (rel name : String) : Bool :=
  ig rel || name = "node_modules"

/-- `traverseDirectory` of `extension.ts`, phrased over the listing of the
directory being traversed.  `ig` is the `ig.ignores` predicate produced by
the `ignore` library, `pre` the relative path of the directory (`""` for
the root).  Each entry: skip when ignored or named `node_modules`;
directories register a folder node and recurse; `.ts`/`.js` files are
parsed, registered as a file node whose `imports` field is then mutated,
and contribute one dependency node and one link per specifier; all other
files are skipped. -/
def travList (ig : String → Bool) : String → FSListing → GState → GState
  | _, .nil, st => st
  | pre, .file name content rest, st =>
    let rel := joinRel pre name
    let st' :=
      if skipEntry ig rel name then st
      else if isSrcName name then
        addImportLinks rel (parseImports content)
          (setImports (addNode st rel .file false) rel (parseImports content))
      else st
    travList ig pre rest st'
  | pre, .dir name sub rest, st =>
    let rel := joinRel pre name
    let st' :=
      if skipEntry ig rel name then st
      else travList ig rel sub (addNode st rel .folder false)
    travList ig pre rest st'

/-- Errors thrown out of `buildGraph`: `readFileSync` on a missing path
(ENOENT), `readFileSync` on a directory (EISDIR), and `JSON.parse` on
malformed input (SyntaxError). -/
inductive BuildError where
  | enoent
  | eisdir
  | jsonError
deriving DecidableEq, Repr

/-- The filesystem object found under a name: a file's content or a
directory. -/
inductive FSFound where
  | file (content : String)
  | isDir
deriving DecidableEq, Repr

/-- Look a name up in the root listing (path resolution of
`path.join(rootPath, name)`). -/
def lookupRoot (name : String) : FSListing → Option FSFound
  | .nil => none
  | .file n c rest => if n = name then some (.file c) else lookupRoot name rest
  | .dir n _ rest => if n = name then some .isDir else lookupRoot name rest

/-- The finished graph returned by `buildGraph`. -/
structure Graph where
  nodes : List Node
  links : List Link
deriving DecidableEq, Repr

instance {ε α : Type} [DecidableEq ε] [DecidableEq α] : DecidableEq (Except ε α)
  | .error a, .error b =>
    if h : a = b then isTrue (by rw [h]) else isFalse (by intro hc; cases hc; exact h rfl)
  | .error _, .ok _ => isFalse (by intro hc; cases hc)
  | .ok _, .error _ => isFalse (by intro hc; cases hc)
  | .ok a, .ok b =>
    if h : a = b then isTrue (by rw [h]) else isFalse (by intro hc; cases hc; exact h rfl)

/-- The manifest-injection loop: `dependencies.forEach(dep =>
addNode(dep, 'dependency', true))`. -/
def depsInject (deps : List String) (st : GState) : GState :=
  deps.foldl (fun s d => addNode s d .dependency true) st

/-- The orphan-pruning step of `buildGraph`: keep only nodes whose id
occurs as some link's source or target; links are returned untouched. -/
def pruneG (st : GState) : Graph :=
  let connected := st.links.flatMap (fun l => [l.source, l.target])
  ⟨st.nodes.filter (fun n => connected.contains n.id), st.links⟩

/-- `buildGraph` of `extension.ts`, for an existing root directory with
listing `fsRoot`.  `igLib` models the `ignore` library: gitignore content
to a path predicate.  `jsonDeps` models `JSON.parse` followed by
`Object.keys(packageJson.dependencies || {})`: manifest text to the
declared dependency names, `none` when `JSON.parse` throws.  The code
reads `.gitignore` unconditionally (`readFileSync` throws when the file
is absent), traverses, injects manifest dependencies when `package.json`
exists (`JSON.parse` throwing on malformed text aborts the build), then
prunes nodes that occur in no link. -/
def buildGraph (igLib : String → String → Bool) (jsonDeps : String → Option (List String))
    (fsRoot : FSListing) : Except BuildError Graph :=
  match lookupRoot ".gitignore" fsRoot with
  | none => .error .enoent
  | some .isDir => .error .eisdir
  | some (.file gitignoreContent) =>
    let st := travList (igLib gitignoreContent) "" fsRoot ⟨[], []⟩
    match lookupRoot "package.json" fsRoot with
    | none => .ok (pruneG st)
    | some .isDir => .error .eisdir
    | some (.file c) =>
      match jsonDeps c with
      | none => .error .jsonError
      | some deps => .ok (pruneG (depsInject deps st))

/-- The "all paths ignore nothing" matcher: what `ignore().add("")` of the
`ignore` library computes. -/
def igNone : String → String → Bool := fun _ _ => false

/-- A `JSON.parse` model for inputs where no manifest is consulted. -/
def jsonNone : String → Option (List String) := fun _ => none

/-! ## Specification-side views of the traversal

These functions recompute, directly over the filesystem, which entries
the traversal processes: the source files it parses (with their relative
paths and contents), the links it appends, and the relative paths it
registers as folder or file nodes.  They mirror the skip conditions of
`travList` exactly. -/

/-- The `.ts`/`.js` files the traversal parses, as (relative path,
content) pairs in traversal order. -/
def srcFiles (ig : String → Bool) : String → FSListing → List (String × String)
  | _, .nil => []
  | pre, .file name content rest =>
    let rel := joinRel pre name
    (if skipEntry ig rel name then []
     else if isSrcName name then [(rel, content)] else []) ++ srcFiles ig pre rest
  | pre, .dir name sub rest =>
    let rel := joinRel pre name
    (if skipEntry ig rel name then [] else srcFiles ig rel sub) ++
      srcFiles ig pre rest

/-- The links the traversal appends, in order: one per extracted
specifier of each parsed source file. -/
def fileLinks (ig : String → Bool) (pre : String) (l : FSListing) : List Link :=
  (srcFiles ig pre l).flatMap (fun rc => (parseImports rc.2).map (fun imp => ⟨rc.1, imp⟩))

/-- The relative paths the traversal registers as folder or file nodes. -/
def regPaths (ig : String → Bool) : String → FSListing → List String
  | _, .nil => []
  | pre, .file name _ rest =>
    let rel := joinRel pre name
    (if skipEntry ig rel name then []
     else if isSrcName name then [rel] else []) ++ regPaths ig pre rest
  | pre, .dir name sub rest =>
    let rel := joinRel pre name
    (if skipEntry ig rel name then [] else rel :: regPaths ig rel sub) ++
      regPaths ig pre rest

/-! ## Basic state lemmas -/

/-- The ids of the registered nodes, in insertion order. -/
def idsOf (st : GState) : List String := st.nodes.map Node.id

/-- Every link's endpoints are registered node ids. -/
def goodLinks (st : GState) : Prop :=
  ∀ l ∈ st.links, st.hasNode l.source = true ∧ st.hasNode l.target = true


/-- The state the traversal produces for a single file entry. -/
def fileStep (ig : String → Bool) (pre name content : String) (st : GState) : GState :=
  if skipEntry ig (joinRel pre name) name then st
  else if isSrcName name then
    addImportLinks (joinRel pre name) (parseImports content)
      (setImports (addNode st (joinRel pre name) .file false) (joinRel pre name)
        (parseImports content))
  else st

/-- The state the traversal produces for a single directory entry. -/
def dirStep (ig : String → Bool) (pre name : String) (sub : FSListing) (st : GState) : GState :=
  if skipEntry ig (joinRel pre name) name then st
  else travList ig (joinRel pre name) sub (addNode st (joinRel pre name) .folder false)

/-- Every node with a non-empty `imports` field has its id in `S`. -/
def importsBound (st : GState) (S : List String) : Prop :=
  ∀ n ∈ st.nodes, n.imports ≠ [] → n.id ∈ S

/-- The relative paths of the source files the traversal parses. -/
def srcPaths (ig : String → Bool) (pre : String) (l : FSListing) : List String :=
  (srcFiles ig pre l).map Prod.fst

/-- The connected-id list computed by the pruning step. -/
def connectedIds (st : GState) : List String :=
  st.links.flatMap (fun l => [l.source, l.target])

/-! ## The fileParser.ts implementation

`src/fileParser.ts` contains the alternative builder: `buildFileGraph`
checks for `.gitignore` with `existsSync` before reading it, always adds
`node_modules` to the ignore patterns, accepts all four extensions
`.ts/.js/.tsx/.jsx`, keys nodes by absolute path, and uses the AST-based
`parseImports` (the `typescript` library, abstracted here as the
`extract` parameter). -/

/-- The `FileNode` interface of `fileParser.ts`. -/
structure FileNode where
  id : String
  label : String
  imports : List String
deriving DecidableEq, Repr

/-- `path.basename`: the segment after the last separator. -/
def basenameAux (acc : List Char) : List Char → List Char
  | [] => acc.reverse
  | c :: rest => if c = '/' then basenameAux [] rest else basenameAux (c :: acc) rest

def basename (p : String) : String := String.mk (basenameAux [] p.data)

/-- The extension test of `fileParser.ts`:
`/\.(ts|js|tsx|jsx)$/.test(entry.name)` — the name ends in one of the
four anchored alternatives. -/
def extTestFP (name : String) : Bool :=
  ".ts".data.isSuffixOf name.data || ".js".data.isSuffixOf name.data ||
    ".tsx".data.isSuffixOf name.data || ".jsx".data.isSuffixOf name.data

/-- `this.nodes.set(id, node)` on a JS `Map`: overwriting keeps the
original insertion position, a fresh key is appended. -/
def fgSet (nodes : List FileNode) (n : FileNode) : List FileNode :=
  if nodes.any (fun m => m.id = n.id)
  then nodes.map (fun m => if m.id = n.id then n else m)
  else nodes ++ [n]

/-- `path.join(dirPath, entry.name)`. -/
def joinPath (a b : String) : String := a ++ "/" ++ b

/-- `traverseDirectory` of `fileParser.ts`: ignored entries are skipped,
directories recurse (no folder nodes), files matching the extension test
are parsed (`extract`) and registered keyed by full path. -/
def fgTrav (extract : String → List String) (ig : String → Bool) :
    String → String → FSListing → List FileNode → List FileNode
  | _, _, .nil, acc => acc
  | fullPre, relPre, .file name content rest, acc =>
    let full := joinPath fullPre name
    let rel := joinRel relPre name
    let acc' :=
      if ig rel then acc
      else if extTestFP name then fgSet acc ⟨full, basename full, extract content⟩
      else acc
    fgTrav extract ig fullPre relPre rest acc'
  | fullPre, relPre, .dir name sub rest, acc =>
    let full := joinPath fullPre name
    let rel := joinRel relPre name
    let acc' :=
      if ig rel then acc
      else fgTrav extract ig full rel sub acc
    fgTrav extract ig fullPre relPre rest acc'

/-- `buildFileGraph` of `fileParser.ts`.  `igLibFP` models the `ignore`
library instance built from the optional gitignore content plus the
always-added `node_modules` pattern.  A missing `.gitignore` is not an
error. -/
def buildFileGraph (extract : String → List String) (igLibFP : Option String → String → Bool)
    (rootPath : String) (fsRoot : FSListing) : Except BuildError (List FileNode) :=
  match lookupRoot ".gitignore" fsRoot with
  | some .isDir => .error .eisdir
  | some (.file c) => .ok (fgTrav extract (igLibFP (some c)) rootPath "" fsRoot [])
  | none => .ok (fgTrav extract (igLibFP none) rootPath "" fsRoot [])

/-- The trivial matcher family for `buildFileGraph` uses. -/
def igNoneFP : Option String → String → Bool := fun _ _ => false

/-! ## Symlinked filesystem model (termination analysis)

`traverseDirectory` recurses on paths and `fs.statSync` follows
symlinks, so a symlink to an ancestor directory makes a subdirectory and
a symlink-to-directory indistinguishable to the code.  Real directories
are numbered; an entry is a file or something that stats as a directory
(a true subdirectory or a symlink) resolving to a real directory id.
The traversal is run with fuel; `none` means the recursion has not
completed within that depth.  A completed traversal returns the real
directories visited, in visit order and with multiplicity. -/

inductive SymListing where
  | nil
  | file (name : String) (content : String) (rest : SymListing)
  | dirLike (name : String) (target : Nat) (rest : SymListing)
deriving DecidableEq, Repr

/-- The listing `readdirSync` returns for real directory `d`. -/
def lookupDir (d : Nat) : List (Nat × SymListing) → Option SymListing
  | [] => none
  | (k, l) :: rest => if k = d then some l else lookupDir d rest

mutual

/-- Process the entries of one directory, as `traverseDirectory`'s loop
does: skipped entries contribute nothing; an entry that stats as a
directory recurses into its resolved real directory. -/
def travSymList (fs : List (Nat × SymListing)) (ig : String → Bool) :
    Nat → String → SymListing → Option (List Nat)
  | _, _, .nil => some []
  | fuel, pre, .file _ _ rest => travSymList fs ig fuel pre rest
  | fuel, pre, .dirLike name t rest =>
    let rel := joinRel pre name
    if ig rel || name = "node_modules" then travSymList fs ig fuel pre rest
    else
      match travSymDir fs ig fuel rel t with
      | none => none
      | some vs =>
        match travSymList fs ig fuel pre rest with
        | none => none
        | some vs2 => some (vs ++ vs2)

/-- `traverseDirectory(dir)` itself: visit the real directory, read its
listing, process the entries. -/
def travSymDir (fs : List (Nat × SymListing)) (ig : String → Bool) :
    Nat → String → Nat → Option (List Nat)
  | 0, _, _ => none
  | fuel + 1, pre, d =>
    match lookupDir d fs with
    | none => some [d]
    | some entries =>
      match travSymList fs ig fuel pre entries with
      | none => none
      | some vs => some (d :: vs)

end

/-! ## The AST-based extractor (modelled)

`parseImports` of `fileParser.ts` parses the text with the external
`typescript` library and collects, in a preorder walk, the module
specifier of every `ImportDeclaration`. -/

/-- Modelled from the spec: the statement-level shape of the syntax tree
the external `typescript` parser produces for a module.  Static import
declarations carry their module specifier; dynamic `import(...)` calls,
`require(...)` calls and re-export (`export ... from`) statements are
distinct node kinds, not `ImportDeclaration`s; comments produce no nodes
at all.  Import declarations only occur as module-level statements. -/
inductive TsStmt where
  | importDecl (specifier : String)
  | exportFromDecl (specifier : String)
  | dynamicImportStmt (specifier : String)
  | requireStmt (specifier : String)
  | otherStmt
deriving DecidableEq, Repr

/-- The collection walk of `parseImports` in `fileParser.ts`: push the
specifier of every `ImportDeclaration`, in source order. -/
def parseImportsAst : List TsStmt → List String
  | [] => []
  | .importDecl s :: rest => s :: parseImportsAst rest
  | .exportFromDecl _ :: rest => parseImportsAst rest
  | .dynamicImportStmt _ :: rest => parseImportsAst rest
  | .requireStmt _ :: rest => parseImportsAst rest
  | .otherStmt :: rest => parseImportsAst rest

/-! ## Sanity checks -/

example : parseImports "import x from 'a.ts'" = ["a.ts"] := by decide
example : parseImports "import p from './util'\nimport q from './util'" = ["./util", "./util"] := by
  decide
example : parseImports "// import a from 'b'" = ["b"] := by decide
example : parseImports "const x = 1" = [] := by decide

example : extname "a.ts" = ".ts" := by decide
example : extname ".gitignore" = "" := by decide
example : extname "a.b.js" = ".js" := by decide
example : extname "package.json" = ".json" := by decide

example :
    buildGraph igNone jsonNone
      (.file ".gitignore" "" (.file "b.ts" "import x from 'a.ts'" .nil)) =
    .ok ⟨[⟨"b.ts", ["a.ts"], false, .file⟩, ⟨"a.ts", [], true, .dependency⟩],
         [⟨"b.ts", "a.ts"⟩]⟩ := by decide

theorem addNode_links (st : GState) (id : String) (ty : NodeType) (ext : Bool) :
    (addNode st id ty ext).links = st.links := by
  unfold addNode; split <;> rfl

theorem setImports_links (st : GState) (id : String) (imps : List String) :
    (setImports st id imps).links = st.links := rfl

theorem addLink_links (st : GState) (s t : String) :
    (addLink st s t).links = st.links ++ [⟨s, t⟩] := rfl

theorem addLink_nodes (st : GState) (s t : String) :
    (addLink st s t).nodes = st.nodes := rfl

theorem setImports_ids (st : GState) (id : String) (imps : List String) :
    idsOf (setImports st id imps) = idsOf st := by
  unfold idsOf setImports
  simp only [List.map_map]
  apply List.map_congr_left
  intro n _
  by_cases h : n.id = id <;> simp [h]

theorem hasNode_iff (st : GState) (x : String) :
    st.hasNode x = true ↔ x ∈ idsOf st := by
  unfold GState.hasNode idsOf
  simp [List.any_eq_true, List.mem_map]

theorem addNode_hasNode_self (st : GState) (id : String) (ty : NodeType) (ext : Bool) :
    (addNode st id ty ext).hasNode id = true := by
  unfold addNode
  split
  · assumption
  · unfold GState.hasNode
    simp

theorem addNode_hasNode_mono (st : GState) (id x : String) (ty : NodeType) (ext : Bool)
    (h : st.hasNode x = true) : (addNode st id ty ext).hasNode x = true := by
  unfold addNode
  split
  · exact h
  · unfold GState.hasNode at h ⊢
    simp only [List.any_append, Bool.or_eq_true]
    exact Or.inl h

theorem setImports_hasNode (st : GState) (id x : String) (imps : List String) :
    (setImports st id imps).hasNode x = st.hasNode x := by
  have h1 := hasNode_iff (setImports st id imps) x
  have h2 := hasNode_iff st x
  rw [setImports_ids] at h1
  by_cases hx : x ∈ idsOf st
  · rw [h1.2 hx, h2.2 hx]
  · cases hh : (setImports st id imps).hasNode x
    · cases hh2 : st.hasNode x
      · rfl
      · exact absurd (h2.1 hh2) hx
    · exact absurd (h1.1 hh) hx

theorem addLink_hasNode (st : GState) (s t x : String) :
    (addLink st s t).hasNode x = st.hasNode x := rfl

/-! ## Lemmas about the per-file import loop -/

theorem addImportLinks_cons (rel i : String) (imps : List String) (st : GState) :
    addImportLinks rel (i :: imps) st =
      addImportLinks rel imps (addLink (addNode st i .dependency true) rel i) := rfl

theorem addImportLinks_links (rel : String) (imps : List String) (st : GState) :
    (addImportLinks rel imps st).links =
      st.links ++ imps.map (fun imp => (⟨rel, imp⟩ : Link)) := by
  induction imps generalizing st with
  | nil => simp [addImportLinks]
  | cons i rest ih =>
    rw [addImportLinks_cons, ih, addLink_links, addNode_links]
    simp

theorem addImportLinks_hasNode_mono (rel x : String) (imps : List String) (st : GState)
    (h : st.hasNode x = true) : (addImportLinks rel imps st).hasNode x = true := by
  induction imps generalizing st with
  | nil => exact h
  | cons i rest ih =>
    rw [addImportLinks_cons]
    exact ih _ (by rw [addLink_hasNode]; exact addNode_hasNode_mono _ _ _ _ _ h)

theorem addImportLinks_hasNode_of_mem (rel x : String) (imps : List String) (st : GState)
    (h : x ∈ imps) : (addImportLinks rel imps st).hasNode x = true := by
  induction imps generalizing st with
  | nil => cases h
  | cons i rest ih =>
    rw [addImportLinks_cons]
    rcases List.mem_cons.1 h with h | h
    · subst h
      exact addImportLinks_hasNode_mono _ _ _ _
        (by rw [addLink_hasNode]; exact addNode_hasNode_self _ _ _ _)
    · exact ih _ h

/-! ## The no-dangling-edges invariant -/

theorem goodLinks_addNode (st : GState) (id : String) (ty : NodeType) (ext : Bool)
    (h : goodLinks st) : goodLinks (addNode st id ty ext) := by
  intro l hl
  rw [addNode_links] at hl
  exact ⟨addNode_hasNode_mono _ _ _ _ _ (h l hl).1, addNode_hasNode_mono _ _ _ _ _ (h l hl).2⟩

theorem goodLinks_setImports (st : GState) (id : String) (imps : List String)
    (h : goodLinks st) : goodLinks (setImports st id imps) := by
  intro l hl
  rw [setImports_links] at hl
  rw [setImports_hasNode, setImports_hasNode]
  exact h l hl

theorem goodLinks_addImportLinks (rel : String) (imps : List String) (st : GState)
    (hrel : st.hasNode rel = true) (h : goodLinks st) :
    goodLinks (addImportLinks rel imps st) := by
  induction imps generalizing st with
  | nil => exact h
  | cons i rest ih =>
    rw [addImportLinks_cons]
    apply ih
    · rw [addLink_hasNode]
      exact addNode_hasNode_mono _ _ _ _ _ hrel
    · intro l hl
      rw [addLink_links, addNode_links] at hl
      rw [addLink_hasNode, addLink_hasNode]
      rcases List.mem_append.1 hl with hl | hl
      · have := (h l hl)
        exact ⟨addNode_hasNode_mono _ _ _ _ _ this.1, addNode_hasNode_mono _ _ _ _ _ this.2⟩
      · have : l = ⟨rel, i⟩ := by simpa using hl
        subst this
        exact ⟨addNode_hasNode_mono _ _ _ _ _ hrel, addNode_hasNode_self _ _ _ _⟩

/-! ## Traversal lemmas -/

theorem travList_nil (ig : String → Bool) (pre : String) (st : GState) :
    travList ig pre .nil st = st := rfl

theorem travList_file (ig : String → Bool) (pre name content : String) (rest : FSListing)
    (st : GState) :
    travList ig pre (.file name content rest) st =
      travList ig pre rest (fileStep ig pre name content st) := rfl

theorem travList_dir (ig : String → Bool) (pre name : String) (sub rest : FSListing)
    (st : GState) :
    travList ig pre (.dir name sub rest) st =
      travList ig pre rest (dirStep ig pre name sub st) := rfl

theorem srcFiles_nil (ig : String → Bool) (pre : String) : srcFiles ig pre .nil = [] := rfl

theorem srcFiles_file (ig : String → Bool) (pre name content : String) (rest : FSListing) :
    srcFiles ig pre (.file name content rest) =
      (if skipEntry ig (joinRel pre name) name then []
       else if isSrcName name then [(joinRel pre name, content)] else []) ++
        srcFiles ig pre rest := rfl

theorem srcFiles_dir (ig : String → Bool) (pre name : String) (sub rest : FSListing) :
    srcFiles ig pre (.dir name sub rest) =
      (if skipEntry ig (joinRel pre name) name then []
       else srcFiles ig (joinRel pre name) sub) ++ srcFiles ig pre rest := rfl

theorem fileLinks_nil (ig : String → Bool) (pre : String) : fileLinks ig pre .nil = [] := rfl

theorem fileLinks_file (ig : String → Bool) (pre name content : String) (rest : FSListing) :
    fileLinks ig pre (.file name content rest) =
      (if skipEntry ig (joinRel pre name) name then []
       else if isSrcName name then
         (parseImports content).map (fun imp => (⟨joinRel pre name, imp⟩ : Link))
       else []) ++ fileLinks ig pre rest := by
  unfold fileLinks
  rw [srcFiles_file, List.flatMap_append]
  by_cases h1 : skipEntry ig (joinRel pre name) name
  · simp [h1]
  · simp only [h1, Bool.false_eq_true, if_false]
    by_cases h2 : isSrcName name
    · simp [h2]
    · simp [h2]

theorem fileLinks_dir (ig : String → Bool) (pre name : String) (sub rest : FSListing) :
    fileLinks ig pre (.dir name sub rest) =
      (if skipEntry ig (joinRel pre name) name then []
       else fileLinks ig (joinRel pre name) sub) ++ fileLinks ig pre rest := by
  unfold fileLinks
  rw [srcFiles_dir, List.flatMap_append]
  by_cases h1 : skipEntry ig (joinRel pre name) name
  · simp [h1]
  · simp [h1]

theorem travList_links (ig : String → Bool) :
    ∀ (l : FSListing) (pre : String) (st : GState),
      (travList ig pre l st).links = st.links ++ fileLinks ig pre l := by
  intro l
  induction l with
  | nil =>
    intro pre st
    simp [travList_nil, fileLinks_nil]
  | file name content rest ih =>
    intro pre st
    rw [travList_file, ih, fileLinks_file]
    unfold fileStep
    by_cases h1 : skipEntry ig (joinRel pre name) name
    · simp [h1]
    · simp only [h1, Bool.false_eq_true, if_false]
      by_cases h2 : isSrcName name
      · simp only [h2, if_true]
        rw [addImportLinks_links, setImports_links, addNode_links]
        simp
      · simp [h2]
  | dir name sub rest ihs ihr =>
    intro pre st
    rw [travList_dir, ihr, fileLinks_dir]
    unfold dirStep
    by_cases h1 : skipEntry ig (joinRel pre name) name
    · simp [h1]
    · simp only [h1, Bool.false_eq_true, if_false]
      rw [ihs, addNode_links]
      simp

theorem fileStep_hasNode_mono (ig : String → Bool) (pre name content x : String) (st : GState)
    (h : st.hasNode x = true) : (fileStep ig pre name content st).hasNode x = true := by
  unfold fileStep
  split
  · exact h
  · split
    · exact addImportLinks_hasNode_mono _ _ _ _
        (by rw [setImports_hasNode]; exact addNode_hasNode_mono _ _ _ _ _ h)
    · exact h

theorem travList_hasNode_mono (ig : String → Bool) :
    ∀ (l : FSListing) (pre x : String) (st : GState),
      st.hasNode x = true → (travList ig pre l st).hasNode x = true := by
  intro l
  induction l with
  | nil => intro pre x st h; exact h
  | file name content rest ih =>
    intro pre x st h
    rw [travList_file]
    exact ih _ _ _ (fileStep_hasNode_mono _ _ _ _ _ _ h)
  | dir name sub rest ihs ihr =>
    intro pre x st h
    rw [travList_dir]
    apply ihr
    unfold dirStep
    split
    · exact h
    · exact ihs _ _ _ (addNode_hasNode_mono _ _ _ _ _ h)

theorem travList_goodLinks (ig : String → Bool) :
    ∀ (l : FSListing) (pre : String) (st : GState),
      goodLinks st → goodLinks (travList ig pre l st) := by
  intro l
  induction l with
  | nil => intro pre st h; exact h
  | file name content rest ih =>
    intro pre st h
    rw [travList_file]
    apply ih
    unfold fileStep
    split
    · exact h
    · split
      · apply goodLinks_addImportLinks
        · rw [setImports_hasNode]
          exact addNode_hasNode_self _ _ _ _
        · exact goodLinks_setImports _ _ _ (goodLinks_addNode _ _ _ _ h)
      · exact h
  | dir name sub rest ihs ihr =>
    intro pre st h
    rw [travList_dir]
    apply ihr
    unfold dirStep
    split
    · exact h
    · exact ihs _ _ (goodLinks_addNode _ _ _ _ h)

/-! ## Uniqueness of node ids -/

theorem addNode_nodup (st : GState) (id : String) (ty : NodeType) (ext : Bool)
    (h : (idsOf st).Nodup) : (idsOf (addNode st id ty ext)).Nodup := by
  unfold addNode
  split
  · exact h
  · next hno =>
    have hmem : id ∉ idsOf st := by
      intro hmem
      exact hno ((hasNode_iff st id).2 hmem)
    unfold idsOf at h ⊢
    simp only [List.map_append, List.map_cons, List.map_nil]
    rw [List.nodup_append]
    refine ⟨h, List.nodup_singleton _, ?_⟩
    intro a ha hb
    rw [List.mem_singleton] at hb
    subst hb
    exact hmem ha

theorem setImports_nodup (st : GState) (id : String) (imps : List String)
    (h : (idsOf st).Nodup) : (idsOf (setImports st id imps)).Nodup := by
  rw [setImports_ids]; exact h

theorem addImportLinks_nodup (rel : String) (imps : List String) (st : GState)
    (h : (idsOf st).Nodup) : (idsOf (addImportLinks rel imps st)).Nodup := by
  induction imps generalizing st with
  | nil => exact h
  | cons i rest ih =>
    rw [addImportLinks_cons]
    exact ih _ (addNode_nodup _ _ _ _ h)

theorem travList_nodup (ig : String → Bool) :
    ∀ (l : FSListing) (pre : String) (st : GState),
      (idsOf st).Nodup → (idsOf (travList ig pre l st)).Nodup := by
  intro l
  induction l with
  | nil => intro pre st h; exact h
  | file name content rest ih =>
    intro pre st h
    rw [travList_file]
    apply ih
    unfold fileStep
    split
    · exact h
    · split
      · exact addImportLinks_nodup _ _ _ (setImports_nodup _ _ _ (addNode_nodup _ _ _ _ h))
      · exact h
  | dir name sub rest ihs ihr =>
    intro pre st h
    rw [travList_dir]
    apply ihr
    unfold dirStep
    split
    · exact h
    · exact ihs _ _ (addNode_nodup _ _ _ _ h)

/-! ## Where nodes come from: kind and isExternal provenance -/

theorem addNode_node_origin (st : GState) (id : String) (ty : NodeType) (ext : Bool) :
    ∀ n ∈ (addNode st id ty ext).nodes,
      n ∈ st.nodes ∨ (n.id = id ∧ n.type = ty ∧ n.isExternal = ext ∧ n.imports = []) := by
  intro n hn
  unfold addNode at hn
  split at hn
  · exact Or.inl hn
  · rcases List.mem_append.1 hn with h | h
    · exact Or.inl h
    · right
      have : n = ⟨id, [], ext, ty⟩ := by simpa using h
      subst this
      exact ⟨rfl, rfl, rfl, rfl⟩

theorem setImports_node_proj (st : GState) (id : String) (imps : List String) :
    ∀ n ∈ (setImports st id imps).nodes,
      ∃ m ∈ st.nodes, m.id = n.id ∧ m.type = n.type ∧ m.isExternal = n.isExternal := by
  intro n hn
  unfold setImports at hn
  simp only [List.mem_map] at hn
  obtain ⟨m, hm, hmn⟩ := hn
  refine ⟨m, hm, ?_⟩
  by_cases h : m.id = id
  · simp only [h, if_true] at hmn
    subst hmn
    exact ⟨h, rfl, rfl⟩
  · simp only [h, if_false] at hmn
    subst hmn
    exact ⟨rfl, rfl, rfl⟩

theorem addImportLinks_node_origin (rel : String) (imps : List String) (st : GState) :
    ∀ n ∈ (addImportLinks rel imps st).nodes,
      n ∈ st.nodes ∨ (n.type = .dependency ∧ n.isExternal = true) := by
  induction imps generalizing st with
  | nil => intro n hn; exact Or.inl hn
  | cons i rest ih =>
    intro n hn
    rw [addImportLinks_cons] at hn
    rcases ih _ n hn with h | h
    · rw [addLink_nodes] at h
      rcases addNode_node_origin st i .dependency true n h with h | h
      · exact Or.inl h
      · exact Or.inr ⟨h.2.1, h.2.2.1⟩
    · exact Or.inr h

/-- Unfolding `regPaths` at a file entry. -/
theorem regPaths_file (ig : String → Bool) (pre name content : String) (rest : FSListing) :
    regPaths ig pre (.file name content rest) =
      (if skipEntry ig (joinRel pre name) name then []
       else if isSrcName name then [joinRel pre name] else []) ++ regPaths ig pre rest := rfl

/-- Unfolding `regPaths` at a directory entry. -/
theorem regPaths_dir (ig : String → Bool) (pre name : String) (sub rest : FSListing) :
    regPaths ig pre (.dir name sub rest) =
      (if skipEntry ig (joinRel pre name) name then []
       else joinRel pre name :: regPaths ig (joinRel pre name) sub) ++
        regPaths ig pre rest := rfl

/-- Provenance of the nodes after processing one file entry. -/
theorem fileStep_node_origin (ig : String → Bool) (pre name content : String) (st : GState) :
    ∀ m ∈ (fileStep ig pre name content st).nodes,
      (∃ m0 ∈ st.nodes, m0.id = m.id ∧ m0.type = m.type ∧ m0.isExternal = m.isExternal) ∨
        (skipEntry ig (joinRel pre name) name = false ∧ isSrcName name = true ∧
          m.id = joinRel pre name) ∨
        (m.type = .dependency ∧ m.isExternal = true) := by
  intro m hm
  unfold fileStep at hm
  by_cases hskip : skipEntry ig (joinRel pre name) name = true
  · rw [if_pos hskip] at hm
    exact Or.inl ⟨m, hm, rfl, rfl, rfl⟩
  · rw [if_neg hskip] at hm
    by_cases hsrc : isSrcName name = true
    · rw [if_pos hsrc] at hm
      rcases addImportLinks_node_origin _ _ _ m hm with h2 | h2
      · rcases setImports_node_proj _ _ _ m h2 with ⟨m2, hm2, hm2s⟩
        rcases addNode_node_origin _ _ _ _ m2 hm2 with h3 | h3
        · exact Or.inl ⟨m2, h3, hm2s⟩
        · right; left
          exact ⟨Bool.not_eq_true _ ▸ hskip, hsrc, by rw [← hm2s.1, h3.1]⟩
      · exact Or.inr (Or.inr h2)
    · rw [if_neg hsrc] at hm
      exact Or.inl ⟨m, hm, rfl, rfl, rfl⟩

/-- Provenance of the nodes after processing one directory entry, given
provenance through the subtree. -/
theorem dirStep_node_origin (ig : String → Bool) (pre name : String) (sub : FSListing)
    (st : GState)
    (ihs : ∀ (st0 : GState), ∀ m ∈ (travList ig (joinRel pre name) sub st0).nodes,
      (∃ m0 ∈ st0.nodes, m0.id = m.id ∧ m0.type = m.type ∧ m0.isExternal = m.isExternal) ∨
        m.id ∈ regPaths ig (joinRel pre name) sub ∨
        (m.type = .dependency ∧ m.isExternal = true)) :
    ∀ m ∈ (dirStep ig pre name sub st).nodes,
      (∃ m0 ∈ st.nodes, m0.id = m.id ∧ m0.type = m.type ∧ m0.isExternal = m.isExternal) ∨
        (skipEntry ig (joinRel pre name) name = false ∧
          (m.id = joinRel pre name ∨ m.id ∈ regPaths ig (joinRel pre name) sub)) ∨
        (m.type = .dependency ∧ m.isExternal = true) := by
  intro m hm
  unfold dirStep at hm
  by_cases hskip : skipEntry ig (joinRel pre name) name = true
  · rw [if_pos hskip] at hm
    exact Or.inl ⟨m, hm, rfl, rfl, rfl⟩
  · rw [if_neg hskip] at hm
    rcases ihs _ m hm with h2 | h2 | h2
    · obtain ⟨m2, hm2, hm2s⟩ := h2
      rcases addNode_node_origin _ _ _ _ m2 hm2 with h3 | h3
      · exact Or.inl ⟨m2, h3, hm2s⟩
      · right; left
        exact ⟨Bool.not_eq_true _ ▸ hskip, Or.inl (by rw [← hm2s.1, h3.1])⟩
    · right; left
      exact ⟨Bool.not_eq_true _ ▸ hskip, Or.inr h2⟩
    · exact Or.inr (Or.inr h2)

/-- Any node present after traversing `l` either keeps the projections of
a node already present, or has a registered relative path as id, or is a
dependency node with `isExternal = true`. -/
theorem travList_node_origin (ig : String → Bool) :
    ∀ (l : FSListing) (pre : String) (st : GState),
      ∀ n ∈ (travList ig pre l st).nodes,
        (∃ m ∈ st.nodes, m.id = n.id ∧ m.type = n.type ∧ m.isExternal = n.isExternal) ∨
          n.id ∈ regPaths ig pre l ∨ (n.type = .dependency ∧ n.isExternal = true) := by
  intro l
  induction l with
  | nil =>
    intro pre st n hn
    exact Or.inl ⟨n, hn, rfl, rfl, rfl⟩
  | file name content rest ih =>
    intro pre st n hn
    rw [travList_file] at hn
    rcases ih _ _ n hn with h | h | h
    · obtain ⟨m, hm, hms⟩ := h
      rcases fileStep_node_origin _ _ _ _ _ m hm with h2 | h2 | h2
      · obtain ⟨m0, hm0, hm0s⟩ := h2
        exact Or.inl ⟨m0, hm0, hm0s.1.trans hms.1, hm0s.2.1.trans hms.2.1,
          hm0s.2.2.trans hms.2.2⟩
      · right; left
        rw [regPaths_file]
        apply List.mem_append.2
        left
        rw [h2.1, if_neg (by simp), if_pos h2.2.1]
        simp [← hms.1, h2.2.2]
      · right; right
        exact ⟨hms.2.1 ▸ h2.1, hms.2.2 ▸ h2.2⟩
    · right; left
      rw [regPaths_file]
      exact List.mem_append.2 (Or.inr h)
    · exact Or.inr (Or.inr h)
  | dir name sub rest ihs ihr =>
    intro pre st n hn
    rw [travList_dir] at hn
    rcases ihr _ _ n hn with h | h | h
    · obtain ⟨m, hm, hms⟩ := h
      rcases dirStep_node_origin ig pre name sub st (fun st0 => ihs _ st0) m hm with
        h2 | h2 | h2
      · obtain ⟨m0, hm0, hm0s⟩ := h2
        exact Or.inl ⟨m0, hm0, hm0s.1.trans hms.1, hm0s.2.1.trans hms.2.1,
          hm0s.2.2.trans hms.2.2⟩
      · right; left
        rw [regPaths_dir]
        apply List.mem_append.2
        left
        rw [h2.1, if_neg (by simp)]
        rcases h2.2 with h3 | h3
        · exact List.mem_cons.2 (Or.inl (hms.1 ▸ h3))
        · exact List.mem_cons.2 (Or.inr (hms.1 ▸ h3))
      · right; right
        exact ⟨hms.2.1 ▸ h2.1, hms.2.2 ▸ h2.2⟩
    · right; left
      rw [regPaths_dir]
      exact List.mem_append.2 (Or.inr h)
    · exact Or.inr (Or.inr h)

/-! ## Where non-empty import lists come from -/

theorem importsBound_mono (st : GState) (S T : List String) (hST : ∀ x ∈ S, x ∈ T)
    (h : importsBound st S) : importsBound st T := by
  intro n hn hne
  exact hST _ (h n hn hne)

theorem importsBound_addNode (st : GState) (id : String) (ty : NodeType) (ext : Bool)
    (S : List String) (h : importsBound st S) : importsBound (addNode st id ty ext) S := by
  intro n hn hne
  rcases addNode_node_origin _ _ _ _ n hn with h2 | h2
  · exact h n h2 hne
  · exact absurd h2.2.2.2 hne

theorem importsBound_addLink (st : GState) (s t : String) (S : List String)
    (h : importsBound st S) : importsBound (addLink st s t) S := by
  intro n hn hne
  rw [addLink_nodes] at hn
  exact h n hn hne

theorem importsBound_setImports (st : GState) (id : String) (imps : List String)
    (S : List String) (h : importsBound st S) :
    importsBound (setImports st id imps) (id :: S) := by
  intro n hn hne
  unfold setImports at hn
  simp only [List.mem_map] at hn
  obtain ⟨m, hm, hmn⟩ := hn
  by_cases hid : m.id = id
  · simp only [hid, if_true] at hmn
    subst hmn
    exact List.mem_cons.2 (Or.inl rfl)
  · simp only [hid, if_false] at hmn
    subst hmn
    exact List.mem_cons.2 (Or.inr (h m hm hne))

theorem importsBound_addImportLinks (rel : String) (imps : List String) (st : GState)
    (S : List String) (h : importsBound st S) :
    importsBound (addImportLinks rel imps st) S := by
  induction imps generalizing st with
  | nil => exact h
  | cons i rest ih =>
    rw [addImportLinks_cons]
    exact ih _ (importsBound_addLink _ _ _ _ (importsBound_addNode _ _ _ _ _ h))

theorem travList_importsBound (ig : String → Bool) :
    ∀ (l : FSListing) (pre : String) (st : GState) (S : List String),
      importsBound st S → importsBound (travList ig pre l st) (S ++ srcPaths ig pre l) := by
  intro l
  induction l with
  | nil =>
    intro pre st S h
    exact importsBound_mono st S _ (fun x hx => List.mem_append.2 (Or.inl hx)) h
  | file name content rest ih =>
    intro pre st S h
    rw [travList_file]
    have hstep : importsBound (fileStep ig pre name content st)
        (S ++ (if skipEntry ig (joinRel pre name) name then []
               else if isSrcName name then [joinRel pre name] else [])) := by
      unfold fileStep
      by_cases hskip : skipEntry ig (joinRel pre name) name = true
      · rw [if_pos hskip, if_pos hskip]
        exact importsBound_mono st S _ (fun x hx => List.mem_append.2 (Or.inl hx)) h
      · rw [if_neg hskip, if_neg hskip]
        by_cases hsrc : isSrcName name = true
        · rw [if_pos hsrc, if_pos hsrc]
          apply importsBound_mono _ (joinRel pre name :: S)
          · intro x hx
            rcases List.mem_cons.1 hx with hx | hx
            · exact List.mem_append.2 (Or.inr (by simp [hx]))
            · exact List.mem_append.2 (Or.inl hx)
          · exact importsBound_addImportLinks _ _ _ _
              (importsBound_setImports _ _ _ _ (importsBound_addNode _ _ _ _ _ h))
        · rw [if_neg hsrc, if_neg hsrc]
          exact importsBound_mono st S _ (fun x hx => List.mem_append.2 (Or.inl hx)) h
    have hrest := ih pre (fileStep ig pre name content st) _ hstep
    apply importsBound_mono _ _ _ _ hrest
    intro x hx
    unfold srcPaths
    rw [srcFiles_file, List.map_append]
    unfold srcPaths at hx
    by_cases hskip : skipEntry ig (joinRel pre name) name = true <;>
      by_cases hsrc : isSrcName name = true <;>
      simp only [hskip, hsrc, if_true, if_false, Bool.false_eq_true] at hx ⊢ <;>
      · simp only [List.append_assoc] at hx ⊢
        simpa using hx
  | dir name sub rest ihs ihr =>
    intro pre st S h
    rw [travList_dir]
    have hstep : importsBound (dirStep ig pre name sub st)
        (S ++ (if skipEntry ig (joinRel pre name) name then []
               else srcPaths ig (joinRel pre name) sub)) := by
      unfold dirStep
      by_cases hskip : skipEntry ig (joinRel pre name) name = true
      · rw [if_pos hskip, if_pos hskip]
        exact importsBound_mono st S _ (fun x hx => List.mem_append.2 (Or.inl hx)) h
      · rw [if_neg hskip, if_neg hskip]
        exact ihs _ _ _ (importsBound_addNode _ _ _ _ _ h)
    have hrest := ihr pre (dirStep ig pre name sub st) _ hstep
    apply importsBound_mono _ _ _ _ hrest
    intro x hx
    unfold srcPaths
    rw [srcFiles_dir, List.map_append]
    unfold srcPaths at hx
    by_cases hskip : skipEntry ig (joinRel pre name) name = true <;>
      simp only [hskip, if_true, if_false, Bool.false_eq_true] at hx ⊢ <;>
      · simp only [List.append_assoc] at hx ⊢
        simpa using hx

/-! ## Manifest injection lemmas -/

theorem depsInject_cons (d : String) (deps : List String) (st : GState) :
    depsInject (d :: deps) st = depsInject deps (addNode st d .dependency true) := rfl

theorem depsInject_links (deps : List String) (st : GState) :
    (depsInject deps st).links = st.links := by
  induction deps generalizing st with
  | nil => rfl
  | cons d rest ih => rw [depsInject_cons, ih, addNode_links]

theorem depsInject_goodLinks (deps : List String) (st : GState) (h : goodLinks st) :
    goodLinks (depsInject deps st) := by
  induction deps generalizing st with
  | nil => exact h
  | cons d rest ih => rw [depsInject_cons]; exact ih _ (goodLinks_addNode _ _ _ _ h)

theorem depsInject_nodup (deps : List String) (st : GState) (h : (idsOf st).Nodup) :
    (idsOf (depsInject deps st)).Nodup := by
  induction deps generalizing st with
  | nil => exact h
  | cons d rest ih => rw [depsInject_cons]; exact ih _ (addNode_nodup _ _ _ _ h)

theorem depsInject_node_origin (deps : List String) (st : GState) :
    ∀ n ∈ (depsInject deps st).nodes,
      n ∈ st.nodes ∨ (n.type = .dependency ∧ n.isExternal = true ∧ n.imports = []) := by
  induction deps generalizing st with
  | nil => intro n hn; exact Or.inl hn
  | cons d rest ih =>
    intro n hn
    rw [depsInject_cons] at hn
    rcases ih _ n hn with h | h
    · rcases addNode_node_origin _ _ _ _ n h with h2 | h2
      · exact Or.inl h2
      · exact Or.inr ⟨h2.2.1, h2.2.2.1, h2.2.2.2⟩
    · exact Or.inr h

theorem depsInject_importsBound (deps : List String) (st : GState) (S : List String)
    (h : importsBound st S) : importsBound (depsInject deps st) S := by
  intro n hn hne
  rcases depsInject_node_origin _ _ n hn with h2 | h2
  · exact h n h2 hne
  · exact absurd h2.2.2 hne

theorem depsInject_hasNode_mono (deps : List String) (st : GState) (x : String)
    (h : st.hasNode x = true) : (depsInject deps st).hasNode x = true := by
  induction deps generalizing st with
  | nil => exact h
  | cons d rest ih =>
    rw [depsInject_cons]
    exact ih _ (addNode_hasNode_mono _ _ _ _ _ h)

/-! ## Pruning lemmas -/

theorem pruneG_links (st : GState) : (pruneG st).links = st.links := rfl

theorem pruneG_nodes (st : GState) :
    (pruneG st).nodes = st.nodes.filter (fun n => (connectedIds st).contains n.id) := rfl

theorem mem_connectedIds (st : GState) (x : String) :
    x ∈ connectedIds st ↔ ∃ l ∈ st.links, l.source = x ∨ l.target = x := by
  unfold connectedIds
  simp only [List.mem_flatMap, List.mem_cons, List.mem_singleton]
  constructor
  · rintro ⟨l, hl, h | h | h⟩
    · exact ⟨l, hl, Or.inl h.symm⟩
    · exact ⟨l, hl, Or.inr h.symm⟩
    · cases h
  · rintro ⟨l, hl, h | h⟩
    · exact ⟨l, hl, Or.inl h.symm⟩
    · exact ⟨l, hl, Or.inr (Or.inl h.symm)⟩

theorem mem_pruneG_nodes (st : GState) (n : Node) :
    n ∈ (pruneG st).nodes ↔ n ∈ st.nodes ∧ n.id ∈ connectedIds st := by
  rw [pruneG_nodes, List.mem_filter]
  constructor
  · rintro ⟨h1, h2⟩
    refine ⟨h1, ?_⟩
    have : (connectedIds st).elem n.id = true := h2
    exact List.elem_iff.1 this
  · rintro ⟨h1, h2⟩
    exact ⟨h1, List.elem_iff.2 h2⟩

/-- After pruning, both endpoints of every link remain node ids, provided
every link endpoint was a registered id beforehand. -/
theorem pruneG_no_dangling (st : GState) (h : goodLinks st) :
    ∀ l ∈ (pruneG st).links,
      ((pruneG st).nodes.any (fun n => n.id = l.source)) = true ∧
      ((pruneG st).nodes.any (fun n => n.id = l.target)) = true := by
  intro l hl
  rw [pruneG_links] at hl
  obtain ⟨hs, ht⟩ := h l hl
  constructor
  · rw [hasNode_iff] at hs
    unfold idsOf at hs
    rw [List.mem_map] at hs
    obtain ⟨n, hn, hnid⟩ := hs
    rw [List.any_eq_true]
    refine ⟨n, ?_, by simp [hnid]⟩
    rw [mem_pruneG_nodes]
    exact ⟨hn, by rw [mem_connectedIds]; exact ⟨l, hl, Or.inl hnid.symm⟩⟩
  · rw [hasNode_iff] at ht
    unfold idsOf at ht
    rw [List.mem_map] at ht
    obtain ⟨n, hn, hnid⟩ := ht
    rw [List.any_eq_true]
    refine ⟨n, ?_, by simp [hnid]⟩
    rw [mem_pruneG_nodes]
    exact ⟨hn, by rw [mem_connectedIds]; exact ⟨l, hl, Or.inr hnid.symm⟩⟩

/-! ## Helpers for counting nodes by id -/

theorem filter_id_length_one (l : List Node) (pkg : String)
    (hnd : (l.map Node.id).Nodup) (hex : ∃ n ∈ l, n.id = pkg) :
    (l.filter (fun n => n.id = pkg)).length = 1 := by
  induction l with
  | nil => obtain ⟨n, hn, _⟩ := hex; cases hn
  | cons m rest ih =>
    simp only [List.map_cons, List.nodup_cons] at hnd
    by_cases hm : m.id = pkg
    · have hnone : rest.filter (fun n => n.id = pkg) = [] := by
        rw [List.filter_eq_nil_iff]
        intro n hn
        simp only [decide_eq_true_eq]
        intro hc
        exact hnd.1 (by rw [hm, ← hc]; exact List.mem_map.2 ⟨n, hn, rfl⟩)
      simp [List.filter_cons, hm, hnone]
    · have hex2 : ∃ n ∈ rest, n.id = pkg := by
        obtain ⟨n, hn, hnid⟩ := hex
        rcases List.mem_cons.1 hn with h | h
        · exact absurd (h ▸ hnid) hm
        · exact ⟨n, h, hnid⟩
      have := ih hnd.2 hex2
      simpa [List.filter_cons, hm] using this

/-! ## The successful-run shape of buildGraph -/

/-- A successful `buildGraph` run read a gitignore file and returned the
pruned traversal state, with manifest dependencies injected exactly when
`package.json` existed and parsed. -/
theorem buildGraph_ok_state (igLib : String → String → Bool)
    (jsonDeps : String → Option (List String)) (fs : FSListing) (g : Graph)
    (h : buildGraph igLib jsonDeps fs = .ok g) :
    ∃ gc, lookupRoot ".gitignore" fs = some (.file gc) ∧
      ((lookupRoot "package.json" fs = none ∧
        g = pruneG (travList (igLib gc) "" fs ⟨[], []⟩)) ∨
       (∃ pj deps, lookupRoot "package.json" fs = some (.file pj) ∧
        jsonDeps pj = some deps ∧
        g = pruneG (depsInject deps (travList (igLib gc) "" fs ⟨[], []⟩)))) := by
  unfold buildGraph at h
  cases hgit : lookupRoot ".gitignore" fs with
  | none => rw [hgit] at h; cases h
  | some found =>
    cases found with
    | isDir => rw [hgit] at h; cases h
    | file gc =>
      rw [hgit] at h
      refine ⟨gc, rfl, ?_⟩
      cases hpkg : lookupRoot "package.json" fs with
      | none =>
        rw [hpkg] at h
        simp only [Except.ok.injEq] at h
        exact Or.inl ⟨rfl, h.symm⟩
      | some found2 =>
        cases found2 with
        | isDir => rw [hpkg] at h; cases h
        | file pj =>
          rw [hpkg] at h
          have h3 : (match jsonDeps pj with
              | none => Except.error BuildError.jsonError
              | some deps =>
                Except.ok (pruneG (depsInject deps (travList (igLib gc) "" fs ⟨[], []⟩)))) =
              Except.ok g := h
          cases hdeps : jsonDeps pj with
          | none =>
            rw [hdeps] at h3
            exact absurd h3 (by simp)
          | some deps =>
            rw [hdeps] at h3
            simp only [Except.ok.injEq] at h3
            exact Or.inr ⟨pj, deps, rfl, hdeps, h3.symm⟩

/-- The links of a successful build are exactly the traversal's file
links. -/
theorem buildGraph_ok_links (igLib : String → String → Bool)
    (jsonDeps : String → Option (List String)) (fs : FSListing) (g : Graph) (gc : String)
    (h : buildGraph igLib jsonDeps fs = .ok g)
    (hgit : lookupRoot ".gitignore" fs = some (.file gc)) :
    g.links = fileLinks (igLib gc) "" fs := by
  obtain ⟨gc2, hgit2, hsh⟩ := buildGraph_ok_state igLib jsonDeps fs g h
  rw [hgit] at hgit2
  cases hgit2
  rcases hsh with ⟨_, hg⟩ | ⟨pj, deps, _, _, hg⟩
  · rw [hg, pruneG_links, travList_links]
    rfl
  · rw [hg, pruneG_links, depsInject_links, travList_links]
    rfl

/-- The initial builder state has no dangling links (it has none at
all). -/
theorem goodLinks_init : goodLinks ⟨[], []⟩ := by
  intro l hl
  cases hl

/-- The initial builder state has distinct ids (it has no nodes). -/
theorem nodup_init : (idsOf (⟨[], []⟩ : GState)).Nodup := List.Pairwise.nil

/-- The initial builder state bounds its non-empty import lists by the
empty list (it has no nodes). -/
theorem importsBound_init : importsBound ⟨[], []⟩ [] := by
  intro n hn
  cases hn

/-- The sources of the traversal's links are parsed-file paths. -/
theorem fileLinks_source_mem (ig : String → Bool) (pre : String) (l : FSListing) :
    ∀ lnk ∈ fileLinks ig pre l, lnk.source ∈ srcPaths ig pre l := by
  intro lnk hlnk
  unfold fileLinks at hlnk
  rw [List.mem_flatMap] at hlnk
  obtain ⟨rc, hrc, hmem⟩ := hlnk
  rw [List.mem_map] at hmem
  obtain ⟨imp, _, himp⟩ := hmem
  unfold srcPaths
  rw [List.mem_map]
  exact ⟨rc, hrc, by rw [← himp]⟩

/-- Every parsed-file path is a registered path. -/
theorem srcPaths_sub_regPaths (ig : String → Bool) :
    ∀ (l : FSListing) (pre : String), ∀ x ∈ srcPaths ig pre l, x ∈ regPaths ig pre l := by
  intro l
  induction l with
  | nil =>
    intro pre x hx
    cases hx
  | file name content rest ih =>
    intro pre x hx
    unfold srcPaths at hx
    rw [srcFiles_file, List.map_append] at hx
    rw [regPaths_file]
    rcases List.mem_append.1 hx with hx | hx
    · apply List.mem_append.2
      left
      by_cases hskip : skipEntry ig (joinRel pre name) name = true <;>
        by_cases hsrc : isSrcName name = true <;>
        simp only [hskip, hsrc, if_true, if_false, Bool.false_eq_true] at hx ⊢ <;>
        simpa using hx
    · exact List.mem_append.2 (Or.inr (ih pre x hx))
  | dir name sub rest ihs ihr =>
    intro pre x hx
    unfold srcPaths at hx
    rw [srcFiles_dir, List.map_append] at hx
    rw [regPaths_dir]
    rcases List.mem_append.1 hx with hx | hx
    · apply List.mem_append.2
      left
      by_cases hskip : skipEntry ig (joinRel pre name) name = true <;>
        simp only [hskip, if_true, if_false, Bool.false_eq_true] at hx ⊢
      · simpa using hx
      · exact List.mem_cons.2 (Or.inr (ihs _ x hx))
    · exact List.mem_append.2 (Or.inr (ihr pre x hx))

/-! ## Claim theorems -/

/-- Claim C1: for every root directory on which `buildGraph` completes,
every edge in the returned graph has both its source id and its target id
present in the final (pruned) node set; no edge refers to an id absent
from the node set. -/
theorem claim1_no_dangling_edges (igLib : String → String → Bool)
    (jsonDeps : String → Option (List String)) (fs : FSListing) (g : Graph)
    (h : buildGraph igLib jsonDeps fs = .ok g) :
    (g.links.all (fun l =>
      g.nodes.any (fun n => n.id = l.source) &&
      g.nodes.any (fun n => n.id = l.target))) = true := by
  obtain ⟨gc, _, hsh⟩ := buildGraph_ok_state igLib jsonDeps fs g h
  have hst : goodLinks (travList (igLib gc) "" fs ⟨[], []⟩) :=
    travList_goodLinks _ _ _ _ goodLinks_init
  rw [List.all_eq_true]
  intro l hl
  simp only [Bool.and_eq_true]
  rcases hsh with ⟨_, hg⟩ | ⟨pj, deps, _, _, hg⟩
  · subst hg
    exact pruneG_no_dangling _ hst l hl
  · subst hg
    exact pruneG_no_dangling _ (depsInject_goodLinks _ _ hst) l hl

/-- Witness for C1: a concrete project with one source file and one
import, where the theorem's conclusion evaluates to true. -/
theorem claim1_no_dangling_edges_w :
    buildGraph igNone jsonNone
        (.file ".gitignore" "" (.file "b.ts" "import x from 'a.ts'" .nil)) =
      .ok ⟨[⟨"b.ts", ["a.ts"], false, .file⟩, ⟨"a.ts", [], true, .dependency⟩],
           [⟨"b.ts", "a.ts"⟩]⟩ ∧
    ((⟨[⟨"b.ts", ["a.ts"], false, .file⟩, ⟨"a.ts", [], true, .dependency⟩],
        [⟨"b.ts", "a.ts"⟩]⟩ : Graph).links.all (fun l =>
      (⟨[⟨"b.ts", ["a.ts"], false, .file⟩, ⟨"a.ts", [], true, .dependency⟩],
        [⟨"b.ts", "a.ts"⟩]⟩ : Graph).nodes.any (fun n => n.id = l.source) &&
      (⟨[⟨"b.ts", ["a.ts"], false, .file⟩, ⟨"a.ts", [], true, .dependency⟩],
        [⟨"b.ts", "a.ts"⟩]⟩ : Graph).nodes.any (fun n => n.id = l.target))) = true :=
  ⟨by decide,
    claim1_no_dangling_edges igNone jsonNone
      (.file ".gitignore" "" (.file "b.ts" "import x from 'a.ts'" .nil))
      ⟨[⟨"b.ts", ["a.ts"], false, .file⟩, ⟨"a.ts", [], true, .dependency⟩],
        [⟨"b.ts", "a.ts"⟩]⟩ (by decide)⟩

/-- Claim C6: `addNode` is idempotent with first-writer-wins: when an id
is already registered, a second `addNode` with any kind and isExternal
returns the existing node and leaves the whole state unchanged. -/
theorem claim6_addNode_idempotent (st : GState) (id : String) (ty : NodeType) (ext : Bool)
    (h : st.hasNode id = true) :
    addNode st id ty ext = st ∧ getNode (addNode st id ty ext) id = getNode st id := by
  have he : addNode st id ty ext = st := by
    unfold addNode
    rw [if_pos h]
  exact ⟨he, by rw [he]⟩

/-- Witness for C6: re-registering a registered id with a different kind
and isExternal changes nothing. -/
theorem claim6_addNode_idempotent_w :
    (⟨[⟨"a.ts", [], false, .file⟩], []⟩ : GState).hasNode "a.ts" = true ∧
    (addNode ⟨[⟨"a.ts", [], false, .file⟩], []⟩ "a.ts" .dependency true =
        ⟨[⟨"a.ts", [], false, .file⟩], []⟩ ∧
      getNode (addNode ⟨[⟨"a.ts", [], false, .file⟩], []⟩ "a.ts" .dependency true) "a.ts" =
        getNode ⟨[⟨"a.ts", [], false, .file⟩], []⟩ "a.ts") :=
  ⟨by decide, claim6_addNode_idempotent _ _ _ _ (by decide)⟩

/-- Claim C3 (code bug): when the root has no `.gitignore`, the
`extension.ts` build throws ENOENT out of `readFileSync` instead of
proceeding with an empty pattern set, while the `fileParser.ts` build
succeeds on the same tree. -/
theorem claim3_missing_gitignore (igLib : String → String → Bool)
    (jsonDeps : String → Option (List String)) (extract : String → List String)
    (igLibFP : Option String → String → Bool) (root : String) (fs : FSListing)
    (h : lookupRoot ".gitignore" fs = none) :
    buildGraph igLib jsonDeps fs = .error .enoent ∧
    ∃ ns, buildFileGraph extract igLibFP root fs = .ok ns := by
  constructor
  · unfold buildGraph
    rw [h]
  · refine ⟨fgTrav extract (igLibFP none) root "" fs [], ?_⟩
    unfold buildFileGraph
    rw [h]

/-- Witness for C3: a root containing a single source file and no
`.gitignore`. -/
theorem claim3_missing_gitignore_w :
    lookupRoot ".gitignore" (.file "a.ts" "import x from 'b'" .nil) = none ∧
    (buildGraph igNone jsonNone (.file "a.ts" "import x from 'b'" .nil) = .error .enoent ∧
      ∃ ns, buildFileGraph parseImports igNoneFP "/r"
        (.file "a.ts" "import x from 'b'" .nil) = .ok ns) :=
  ⟨by decide, claim3_missing_gitignore igNone jsonNone parseImports igNoneFP "/r" _ (by decide)⟩

/-- Claim C4 (code bug): when `package.json` holds text on which
`JSON.parse` throws, `buildGraph` aborts with that exception instead of
skipping the manifest step and returning the traversal-derived graph. -/
theorem claim4_malformed_manifest (igLib : String → String → Bool)
    (jsonDeps : String → Option (List String)) (fs : FSListing) (gc pj : String)
    (hgit : lookupRoot ".gitignore" fs = some (.file gc))
    (hpkg : lookupRoot "package.json" fs = some (.file pj))
    (hbad : jsonDeps pj = none) :
    buildGraph igLib jsonDeps fs = .error .jsonError := by
  unfold buildGraph
  simp only [hgit, hpkg, hbad]

/-- Witness for C4: a root whose `package.json` does not parse. -/
theorem claim4_malformed_manifest_w :
    lookupRoot ".gitignore" (.file ".gitignore" "" (.file "package.json" "NOTJSON" .nil)) =
      some (.file "") ∧
    lookupRoot "package.json" (.file ".gitignore" "" (.file "package.json" "NOTJSON" .nil)) =
      some (.file "NOTJSON") ∧
    jsonNone "NOTJSON" = none ∧
    buildGraph igNone jsonNone (.file ".gitignore" "" (.file "package.json" "NOTJSON" .nil)) =
      .error .jsonError :=
  ⟨by decide, by decide, by decide,
    claim4_malformed_manifest igNone jsonNone _ "" "NOTJSON" (by decide) (by decide) (by decide)⟩

/-- Claim C9 (code bug): `buildGraph` of `extension.ts` only handles
`.ts` and `.js`, so a `.tsx` file with imports is skipped entirely and
the returned graph is empty — contradicting the README and the
`fileParser.ts` builder, which registers it with its extracted
imports. -/
theorem claim9_tsx_skipped :
    buildGraph igNone jsonNone
        (.file ".gitignore" "" (.file "App.tsx" "import React from 'react'" .nil)) =
      .ok ⟨[], []⟩ ∧
    buildFileGraph parseImports igNoneFP "/p"
        (.file ".gitignore" "" (.file "App.tsx" "import React from 'react'" .nil)) =
      .ok [⟨"/p/App.tsx", "App.tsx", ["react"]⟩] :=
  ⟨by decide, by decide⟩

/-- Claim C2 (code bug): the traversal keeps no visited set and
`statSync` follows symlinks, so on a root whose entry `loop` resolves
back to the root itself, `traverseDirectory` recurses forever: for every
recursion budget the traversal is still descending and never
completes. -/
theorem claim2_symlink_cycle_diverges :
    ∀ (fuel : Nat) (pre : String),
      travSymDir [(0, .dirLike "loop" 0 .nil)] (fun _ => false) fuel pre 0 = none := by
  intro fuel
  induction fuel with
  | zero =>
    intro pre
    simp [travSymDir]
  | succ n ih =>
    intro pre
    rw [travSymDir]
    have hlk : lookupDir 0 [(0, SymListing.dirLike "loop" 0 SymListing.nil)] =
        some (SymListing.dirLike "loop" 0 SymListing.nil) := rfl
    simp only [hlk]
    rw [travSymList.eq_def]
    simp [ih]

/-- The collection walk distributes over concatenation of statement
sequences. -/
theorem parseImportsAst_append (a b : List TsStmt) :
    parseImportsAst (a ++ b) = parseImportsAst a ++ parseImportsAst b := by
  induction a with
  | nil => rfl
  | cons s t ih => cases s <;> simp [parseImportsAst, ih]

/-- Claim C10 (amended): the AST-based extractor returns exactly the
static import declarations' specifiers, in source order and including
duplicates: an import declaration contributes its specifier at its own
position, while re-export statements, dynamic imports, require calls and
other statements contribute nothing (and comments produce no statements
at all). -/
theorem claim10_ast_extractor_exact (pre post : List TsStmt) (s : String) :
    parseImportsAst (pre ++ .importDecl s :: post) =
      parseImportsAst pre ++ s :: parseImportsAst post ∧
    parseImportsAst (pre ++ .exportFromDecl s :: post) = parseImportsAst (pre ++ post) ∧
    parseImportsAst (pre ++ .dynamicImportStmt s :: post) = parseImportsAst (pre ++ post) ∧
    parseImportsAst (pre ++ .requireStmt s :: post) = parseImportsAst (pre ++ post) ∧
    parseImportsAst (pre ++ .otherStmt :: post) = parseImportsAst (pre ++ post) := by
  refine ⟨?_, ?_, ?_, ?_, ?_⟩ <;> simp [parseImportsAst_append, parseImportsAst]

/-- Counterexample to C10 as stated: the regex-based extractor of
`extension.ts` extracts `"b"` from a source text that is a single line
comment and so contains no static import declaration (a comment
contributes no statements, and the collection walk of the empty
statement sequence is empty). -/
theorem claim10_cex_comment_import :
    parseImports "// import a from 'b'" = ["b"] ∧ parseImportsAst [] = [] :=
  ⟨by decide, rfl⟩

/-- A state whose links all have registered endpoints and whose ids are
distinct keeps, after pruning, exactly one node with the id of any link
target. -/
theorem pruned_unique_target (st : GState) (hgood : goodLinks st)
    (hnd : (idsOf st).Nodup) (s : String) (hl : ∃ l ∈ st.links, l.target = s) :
    ((pruneG st).nodes.filter (fun n => n.id = s)).length = 1 := by
  obtain ⟨l, hlm, hlt⟩ := hl
  have hasN := (hgood l hlm).2
  rw [hlt, hasNode_iff] at hasN
  unfold idsOf at hasN
  rw [List.mem_map] at hasN
  obtain ⟨n, hn, hnid⟩ := hasN
  apply filter_id_length_one
  · exact List.Nodup.sublist ((List.filter_sublist _).map Node.id) hnd
  · refine ⟨n, ?_, hnid⟩
    rw [mem_pruneG_nodes]
    refine ⟨hn, ?_⟩
    rw [mem_connectedIds]
    exact ⟨l, hlm, Or.inr (by rw [hnid, hlt])⟩

/-- Filtering the links made from one file's specifiers for a fixed
(source, target) pair counts the occurrences of that specifier. -/
theorem map_link_filter_len (f s : String) (xs : List String) :
    ((xs.map (fun x => Link.mk f x)).filter (fun l => l = Link.mk f s)).length =
      (xs.filter (fun x => x = s)).length := by
  induction xs with
  | nil => rfl
  | cons a t ih =>
    by_cases ha : a = s
    · simp [List.map_cons, List.filter_cons, ha, ih]
    · simp [List.map_cons, List.filter_cons, ha, Link.mk.injEq, ih]

/-- The traversal starting from the empty state produces exactly the
file links. -/
theorem travList_links_init (ig : String → Bool) (fs : FSListing) :
    (travList ig "" fs ⟨[], []⟩).links = fileLinks ig "" fs := by
  rw [travList_links]
  rfl

/-- Claim C5 (amended): in every graph `buildGraph` returns, a node
carrying a non-empty `imports` list has the relative path of a traversed
source file as its id.  (As stated the claim fails: a `dependency`-kind
node is mutated to carry a file's imports when an import specifier
coincides with a traversed file's relative path — see the
counterexample.) -/
theorem claim5_imports_provenance (igLib : String → String → Bool)
    (jsonDeps : String → Option (List String)) (fs : FSListing) (g : Graph) (gc : String)
    (h : buildGraph igLib jsonDeps fs = .ok g)
    (hgit : lookupRoot ".gitignore" fs = some (.file gc)) :
    (g.nodes.all (fun n =>
      n.imports.isEmpty || (srcPaths (igLib gc) "" fs).contains n.id)) = true := by
  obtain ⟨gc2, hgit2, hsh⟩ := buildGraph_ok_state igLib jsonDeps fs g h
  rw [hgit] at hgit2
  cases hgit2
  have hbound0 : importsBound (travList (igLib gc) "" fs ⟨[], []⟩)
      ([] ++ srcPaths (igLib gc) "" fs) :=
    travList_importsBound _ _ _ _ _ importsBound_init
  rw [List.nil_append] at hbound0
  rw [List.all_eq_true]
  intro n hn
  rcases hsh with ⟨_, hg⟩ | ⟨pj, deps, _, _, hg⟩
  · subst hg
    have hm := (mem_pruneG_nodes _ _).1 hn
    by_cases hi : n.imports = []
    · simp [hi]
    · have hmem := hbound0 n hm.1 hi
      simp only [Bool.or_eq_true]
      right
      exact List.elem_iff.2 hmem
  · subst hg
    have hm := (mem_pruneG_nodes _ _).1 hn
    have hbound1 : importsBound (depsInject deps (travList (igLib gc) "" fs ⟨[], []⟩))
        (srcPaths (igLib gc) "" fs) := depsInject_importsBound _ _ _ hbound0
    by_cases hi : n.imports = []
    · simp [hi]
    · have hmem := hbound1 n hm.1 hi
      simp only [Bool.or_eq_true]
      right
      exact List.elem_iff.2 hmem

/-- Counterexample to C5 as stated: with files `b.ts` importing
`"a.ts"` and `a.ts` importing `"z"`, traversed in that order, the final
graph holds a node of kind `dependency` (first registration, from the
specifier) whose `imports` list is non-empty (mutated when the file
`a.ts` is traversed). -/
theorem claim5_cex_dependency_with_imports :
    (buildGraph igNone jsonNone
        (.file ".gitignore" "" (.file "b.ts" "import x from 'a.ts'"
          (.file "a.ts" "import y from 'z'" .nil)))).map
      (fun g => g.nodes.any (fun n =>
        decide (n.type = NodeType.dependency) && !n.imports.isEmpty)) = .ok true := by
  decide

/-- Witness for C5 (amended) at a concrete project. -/
theorem claim5_imports_provenance_w :
    buildGraph igNone jsonNone (.file ".gitignore" "" (.file "b.ts" "import x from './u'" .nil)) =
      .ok ⟨[⟨"b.ts", ["./u"], false, .file⟩, ⟨"./u", [], true, .dependency⟩],
           [⟨"b.ts", "./u"⟩]⟩ ∧
    lookupRoot ".gitignore" (.file ".gitignore" "" (.file "b.ts" "import x from './u'" .nil)) =
      some (.file "") ∧
    ((⟨[⟨"b.ts", ["./u"], false, .file⟩, ⟨"./u", [], true, .dependency⟩],
        [⟨"b.ts", "./u"⟩]⟩ : Graph).nodes.all (fun n =>
      n.imports.isEmpty ||
        (srcPaths (igNone "") ""
          (.file ".gitignore" "" (.file "b.ts" "import x from './u'" .nil))).contains n.id)) =
      true :=
  ⟨by decide, by decide,
    claim5_imports_provenance igNone jsonNone
      (.file ".gitignore" "" (.file "b.ts" "import x from './u'" .nil))
      ⟨[⟨"b.ts", ["./u"], false, .file⟩, ⟨"./u", [], true, .dependency⟩],
        [⟨"b.ts", "./u"⟩]⟩ "" (by decide) (by decide)⟩

/-- Claim C7 (amended): for a build with a well-formed manifest and a
declared package name that is not the relative path of any traversed
entry: if no traversed file imports it, it is absent from the final node
set; if some traversed file imports it, it appears as exactly one node,
with `isExternal = true` and kind `dependency`.  (As stated the claim
fails when the package name collides with a traversed path — see the
counterexample.) -/
theorem claim7_manifest_injection (igLib : String → String → Bool)
    (jsonDeps : String → Option (List String)) (fs : FSListing) (g : Graph)
    (gc pj : String) (deps : List String) (pkg : String)
    (h : buildGraph igLib jsonDeps fs = .ok g)
    (hgit : lookupRoot ".gitignore" fs = some (.file gc))
    (hpkg : lookupRoot "package.json" fs = some (.file pj))
    (hdeps : jsonDeps pj = some deps)
    (hdecl : pkg ∈ deps)
    (hnreg : pkg ∉ regPaths (igLib gc) "" fs) :
    ((fileLinks (igLib gc) "" fs).all (fun l => l.target ≠ pkg) = true →
      g.nodes.all (fun n => n.id ≠ pkg) = true) ∧
    ((fileLinks (igLib gc) "" fs).any (fun l => l.target = pkg) = true →
      (g.nodes.filter (fun n => n.id = pkg)).length = 1 ∧
      g.nodes.all (fun n => n.id ≠ pkg ||
        (n.isExternal && (n.type = NodeType.dependency))) = true) := by
  obtain ⟨gc2, hgit2, hsh⟩ := buildGraph_ok_state igLib jsonDeps fs g h
  rw [hgit] at hgit2
  cases hgit2
  rcases hsh with ⟨hnone, _⟩ | ⟨pj2, deps2, hpkg2, hdeps2, hg⟩
  · rw [hpkg] at hnone
    cases hnone
  · rw [hpkg] at hpkg2
    cases hpkg2
    rw [hdeps] at hdeps2
    cases hdeps2
    subst hg
    have hgood : goodLinks (travList (igLib gc) "" fs ⟨[], []⟩) :=
      travList_goodLinks _ _ _ _ goodLinks_init
    have hlinks : (depsInject deps (travList (igLib gc) "" fs ⟨[], []⟩)).links =
        fileLinks (igLib gc) "" fs := by
      rw [depsInject_links, travList_links_init]
    constructor
    · intro hno
      rw [List.all_eq_true] at hno ⊢
      intro n hn
      simp only [decide_eq_true_eq]
      intro heq
      have hm := (mem_pruneG_nodes _ _).1 hn
      have hconn := hm.2
      rw [mem_connectedIds] at hconn
      obtain ⟨l, hl, hor⟩ := hconn
      rw [hlinks] at hl
      rcases hor with hsrc | htgt
      · apply hnreg
        apply srcPaths_sub_regPaths
        have hsp := fileLinks_source_mem _ _ _ l hl
        rw [hsrc, heq] at hsp
        exact hsp
      · have hnt := hno l hl
        simp only [decide_eq_true_eq] at hnt
        exact hnt (htgt.trans heq)
    · intro hsome
      rw [List.any_eq_true] at hsome
      obtain ⟨l, hl, hlt⟩ := hsome
      simp only [decide_eq_true_eq] at hlt
      have hgood2 : goodLinks (depsInject deps (travList (igLib gc) "" fs ⟨[], []⟩)) :=
        depsInject_goodLinks _ _ hgood
      have hnd2 : (idsOf (depsInject deps (travList (igLib gc) "" fs ⟨[], []⟩))).Nodup :=
        depsInject_nodup _ _ (travList_nodup _ _ _ _ nodup_init)
      constructor
      · exact pruned_unique_target _ hgood2 hnd2 pkg ⟨l, by rw [hlinks]; exact hl, hlt⟩
      · rw [List.all_eq_true]
        intro n hn
        by_cases hid : n.id = pkg
        · have hm := (mem_pruneG_nodes _ _).1 hn
          have hde : n.type = .dependency ∧ n.isExternal = true := by
            rcases depsInject_node_origin _ _ n hm.1 with hin | hde
            · rcases travList_node_origin _ _ _ _ n hin with ⟨m, hm0, _⟩ | hreg | hde
              · cases hm0
              · exact absurd (hid ▸ hreg) hnreg
              · exact ⟨hde.1, hde.2⟩
            · exact ⟨hde.1, hde.2.1⟩
          simp [hid, hde.1, hde.2]
        · simp [hid]

/-- Counterexample to C7 as stated: the package name `"a.ts"` is
declared in the manifest and imported by no traversed file, yet it is
present in the final node set, because a traversed source file has that
relative path and its own imports keep it connected. -/
theorem claim7_cex_declared_unused_present :
    (buildGraph igNone (fun s => if s = "PKGJSON" then some ["a.ts"] else none)
        (.file ".gitignore" "" (.file "a.ts" "import y from 'z'"
          (.file "package.json" "PKGJSON" .nil)))).map
      (fun g => g.nodes.any (fun n => n.id = "a.ts")) = .ok true ∧
    ((fileLinks (igNone "") ""
        (.file ".gitignore" "" (.file "a.ts" "import y from 'z'"
          (.file "package.json" "PKGJSON" .nil)))).all
      (fun l => l.target ≠ "a.ts")) = true :=
  ⟨by decide, by decide⟩

/-- Witness for C7 (amended): a manifest declaring `react` (imported)
and `unusedpkg` (not imported); the former survives as one external
dependency node, the latter is pruned away. -/
theorem claim7_manifest_injection_w :
    buildGraph igNone (fun s => if s = "PKG7" then some ["react", "unusedpkg"] else none)
        (.file ".gitignore" "" (.file "a.ts" "import r from 'react'"
          (.file "package.json" "PKG7" .nil))) =
      .ok ⟨[⟨"a.ts", ["react"], false, .file⟩, ⟨"react", [], true, .dependency⟩],
           [⟨"a.ts", "react"⟩]⟩ ∧
    ((⟨[⟨"a.ts", ["react"], false, .file⟩, ⟨"react", [], true, .dependency⟩],
        [⟨"a.ts", "react"⟩]⟩ : Graph).nodes.all (fun n => n.id ≠ "unusedpkg")) = true ∧
    ((⟨[⟨"a.ts", ["react"], false, .file⟩, ⟨"react", [], true, .dependency⟩],
        [⟨"a.ts", "react"⟩]⟩ : Graph).nodes.filter (fun n => n.id = "react")).length = 1 ∧
    ((⟨[⟨"a.ts", ["react"], false, .file⟩, ⟨"react", [], true, .dependency⟩],
        [⟨"a.ts", "react"⟩]⟩ : Graph).nodes.all (fun n => n.id ≠ "react" ||
      (n.isExternal && (n.type = NodeType.dependency)))) = true := by
  refine ⟨by decide, ?_, ?_, ?_⟩
  · exact (claim7_manifest_injection igNone
      (fun s => if s = "PKG7" then some ["react", "unusedpkg"] else none)
      (.file ".gitignore" "" (.file "a.ts" "import r from 'react'"
        (.file "package.json" "PKG7" .nil)))
      ⟨[⟨"a.ts", ["react"], false, .file⟩, ⟨"react", [], true, .dependency⟩],
        [⟨"a.ts", "react"⟩]⟩ "" "PKG7" ["react", "unusedpkg"] "unusedpkg"
      (by decide) (by decide) (by decide) (by decide) (by decide) (by decide)).1 (by decide)
  · exact ((claim7_manifest_injection igNone
      (fun s => if s = "PKG7" then some ["react", "unusedpkg"] else none)
      (.file ".gitignore" "" (.file "a.ts" "import r from 'react'"
        (.file "package.json" "PKG7" .nil)))
      ⟨[⟨"a.ts", ["react"], false, .file⟩, ⟨"react", [], true, .dependency⟩],
        [⟨"a.ts", "react"⟩]⟩ "" "PKG7" ["react", "unusedpkg"] "react"
      (by decide) (by decide) (by decide) (by decide) (by decide) (by decide)).2 (by decide)).1
  · exact ((claim7_manifest_injection igNone
      (fun s => if s = "PKG7" then some ["react", "unusedpkg"] else none)
      (.file ".gitignore" "" (.file "a.ts" "import r from 'react'"
        (.file "package.json" "PKG7" .nil)))
      ⟨[⟨"a.ts", ["react"], false, .file⟩, ⟨"react", [], true, .dependency⟩],
        [⟨"a.ts", "react"⟩]⟩ "" "PKG7" ["react", "unusedpkg"] "react"
      (by decide) (by decide) (by decide) (by decide) (by decide) (by decide)).2 (by decide)).2

/-- Claim C8 (amended): when a traversed source file's text yields the
same specifier at least twice, the returned graph holds at least two
links with that identical (source, target) pair, and exactly one node
whose id is that specifier.  (As stated the claim also asserts the node
has kind `dependency`; that fails when the specifier is the relative
path of a traversed file — see the counterexample.) -/
theorem claim8_duplicate_imports (igLib : String → String → Bool)
    (jsonDeps : String → Option (List String)) (fs : FSListing) (g : Graph)
    (gc f c s : String)
    (h : buildGraph igLib jsonDeps fs = .ok g)
    (hgit : lookupRoot ".gitignore" fs = some (.file gc))
    (hsf : (f, c) ∈ srcFiles (igLib gc) "" fs)
    (hcnt : 2 ≤ ((parseImports c).filter (fun x => x = s)).length) :
    2 ≤ (g.links.filter (fun l => l = Link.mk f s)).length ∧
    (g.nodes.filter (fun n => n.id = s)).length = 1 := by
  have hlinks : g.links = fileLinks (igLib gc) "" fs :=
    buildGraph_ok_links _ _ _ _ _ h hgit
  constructor
  · rw [hlinks]
    obtain ⟨l1, l2, hdec⟩ := List.append_of_mem hsf
    unfold fileLinks
    rw [hdec, List.flatMap_append, List.flatMap_cons, List.filter_append, List.filter_append,
      List.length_append, List.length_append]
    dsimp only
    have hmid : (((parseImports c).map (fun imp => Link.mk f imp)).filter
        (fun l => l = Link.mk f s)).length = ((parseImports c).filter (fun x => x = s)).length :=
      map_link_filter_len f s (parseImports c)
    have hge := hcnt
    rw [← hmid] at hge
    omega
  · have hex : s ∈ parseImports c := by
      by_contra hns
      have hnil : (parseImports c).filter (fun x => x = s) = [] := by
        rw [List.filter_eq_nil_iff]
        intro x hx
        simp only [decide_eq_true_eq]
        intro hxs
        exact hns (hxs ▸ hx)
      rw [hnil] at hcnt
      simp at hcnt
    have hlmem : Link.mk f s ∈ fileLinks (igLib gc) "" fs := by
      unfold fileLinks
      rw [List.mem_flatMap]
      exact ⟨(f, c), hsf, List.mem_map.2 ⟨s, hex, rfl⟩⟩
    obtain ⟨gc2, hgit2, hsh⟩ := buildGraph_ok_state igLib jsonDeps fs g h
    rw [hgit] at hgit2
    cases hgit2
    have hgood : goodLinks (travList (igLib gc) "" fs ⟨[], []⟩) :=
      travList_goodLinks _ _ _ _ goodLinks_init
    have hnd : (idsOf (travList (igLib gc) "" fs ⟨[], []⟩)).Nodup :=
      travList_nodup _ _ _ _ nodup_init
    rcases hsh with ⟨_, hg⟩ | ⟨pj, deps, _, _, hg⟩
    · subst hg
      exact pruned_unique_target _ hgood hnd s
        ⟨Link.mk f s, by rw [travList_links_init]; exact hlmem, rfl⟩
    · subst hg
      exact pruned_unique_target _ (depsInject_goodLinks _ _ hgood) (depsInject_nodup _ _ hnd) s
        ⟨Link.mk f s, by rw [depsInject_links, travList_links_init]; exact hlmem, rfl⟩

/-- Counterexample to C8 as stated: `b.ts` imports `"a.ts"` twice and a
file `a.ts` was traversed first, so the graph holds the two identical
links but zero `dependency`-kind nodes for the specifier (the single
node with that id has kind `file`). -/
theorem claim8_cex_no_dependency_node :
    (buildGraph igNone jsonNone
        (.file ".gitignore" "" (.file "a.ts" "import y from 'z'"
          (.file "b.ts" "import p from 'a.ts'\nimport q from 'a.ts'" .nil)))).map
      (fun g =>
        ((g.links.filter (fun l => l = Link.mk "b.ts" "a.ts")).length,
         (g.nodes.filter (fun n =>
           decide (n.id = "a.ts") && decide (n.type = NodeType.dependency))).length)) =
      .ok (2, 0) := by
  decide

/-- Witness for C8 (amended): a file importing `"./util"` twice yields
two identical links and a single node with that id. -/
theorem claim8_duplicate_imports_w :
    buildGraph igNone jsonNone
        (.file ".gitignore" ""
          (.file "m.ts" "import a from './util'\nimport b from './util'" .nil)) =
      .ok ⟨[⟨"m.ts", ["./util", "./util"], false, .file⟩, ⟨"./util", [], true, .dependency⟩],
           [⟨"m.ts", "./util"⟩, ⟨"m.ts", "./util"⟩]⟩ ∧
    ("m.ts", "import a from './util'\nimport b from './util'") ∈
      srcFiles (igNone "") ""
        (.file ".gitignore" ""
          (.file "m.ts" "import a from './util'\nimport b from './util'" .nil)) ∧
    2 ≤ ((parseImports "import a from './util'\nimport b from './util'").filter
      (fun x => x = "./util")).length ∧
    (2 ≤ ((⟨[⟨"m.ts", ["./util", "./util"], false, .file⟩, ⟨"./util", [], true, .dependency⟩],
        [⟨"m.ts", "./util"⟩, ⟨"m.ts", "./util"⟩]⟩ : Graph).links.filter
          (fun l => l = Link.mk "m.ts" "./util")).length ∧
      ((⟨[⟨"m.ts", ["./util", "./util"], false, .file⟩, ⟨"./util", [], true, .dependency⟩],
        [⟨"m.ts", "./util"⟩, ⟨"m.ts", "./util"⟩]⟩ : Graph).nodes.filter
          (fun n => n.id = "./util")).length = 1) :=
  ⟨by decide, by decide, by decide,
    claim8_duplicate_imports igNone jsonNone
      (.file ".gitignore" ""
        (.file "m.ts" "import a from './util'\nimport b from './util'" .nil))
      ⟨[⟨"m.ts", ["./util", "./util"], false, .file⟩, ⟨"./util", [], true, .dependency⟩],
        [⟨"m.ts", "./util"⟩, ⟨"m.ts", "./util"⟩]⟩
      "" "m.ts" "import a from './util'\nimport b from './util'" "./util"
      (by decide) (by decide) (by decide) (by decide)⟩

end VsGraph
